import Mathlib

/-!
# Verification of the pico-state store (src/store.ts, src/utils/helpers.ts)

A shallow embedding of the `Store` / `PubSub` state container.  JavaScript
runtime values that survive a JSON round trip are modelled by `JValue`;
a store's internal state (always a plain object in the code) is modelled
as an ordered association list of fields, mirroring JS property-insertion
order, which `JSON.stringify` is sensitive to.

Two models are developed:
* a value-level model (`setState`, `createSlice`, `construct`, `publish`,
  `subscribe`) for the functional and error-handling behavior, where
  `cloneObject` (a `JSON.parse(JSON.stringify(..))` round trip) is the
  identity on JSON-representable values; and
* a heap model (`HVal`, `Heap`, `hSetState`, ...) with explicit object
  identity, used for the aliasing / clone-boundary properties, where
  `cloneObject` allocates fresh addresses.
-/

namespace PicoState

/-- A JSON-representable JavaScript value.  Objects are ordered field
lists (JS property insertion order); numbers are modelled as integers,
which covers every value occurring in the store's observable behavior. -/
inductive JValue where
  | null : JValue
  | bool : Bool → JValue
  | num : Int → JValue
  | str : String → JValue
  | arr : List JValue → JValue
  | obj : List (String × JValue) → JValue

/-- The field list of a JS plain object. -/
abbrev Fields := List (String × JValue)

/-- `isObject` from src/utils/helpers.ts: `val !== null && typeof val ===
'object' && Array.isArray(val) === false` — true exactly for plain objects. -/
def isObject : JValue → Bool
  | JValue.obj _ => true
  | _ => false

/-- Generic association-list read (first occurrence). -/
def assocGet {α : Type} : List (String × α) → String → Option α
  | [], _ => none
  | (k', v') :: rest, k => if k' = k then some v' else assocGet rest k

/-- Generic association-list write: update the existing binding in place
or append a new one (JS property-assignment semantics). -/
def assocSet {α : Type} : List (String × α) → String → α → List (String × α)
  | [], k, v => [(k, v)]
  | (k', v') :: rest, k, v =>
      if k' = k then (k', v) :: rest else (k', v') :: assocSet rest k v

/-- Property read `o[k]`: first matching field (JS objects have unique keys;
the operations below preserve that). `none` models `undefined`. -/
def objGet : Fields → String → Option JValue := assocGet

/-- Property write `o[k] = v`: updates the existing field in place
(preserving key order, as JS does) or appends a new field. -/
def objSet (f : Fields) (k : String) (v : JValue) : Fields := assocSet f k v

/-- Object spread `{...a, ...b}`: `a`'s fields in order, each later
assignment from `b` overwriting in place or appending. -/
def spreadMerge (a b : Fields) : Fields :=
  b.foldl (fun acc kv => objSet acc kv.1 kv.2) a

/-- JSON string escaping for the two characters the store's values can
contain that `JSON.stringify` must escape. -/
def escapeChar (c : Char) : String :=
  if c = '"' then "\\\"" else if c = '\\' then "\\\\" else String.singleton c

def escapeStr (s : String) : String :=
  String.join (s.toList.map escapeChar)

mutual
/-- `JSON.stringify` on the modelled values: order-sensitive object
serialization, as the spec's equality primitive requires. -/
def JValue.stringify : JValue → String
  | JValue.null => "null"
  | JValue.bool b => cond b "true" "false"
  | JValue.num n => toString n
  | JValue.str s => "\"" ++ escapeStr s ++ "\""
  | JValue.arr xs => "[" ++ stringifyList xs ++ "]"
  | JValue.obj fs => "\x7b" ++ stringifyFields fs ++ "\x7d"

def stringifyList : List JValue → String
  | [] => ""
  | [x] => JValue.stringify x
  | x :: y :: rest => JValue.stringify x ++ "," ++ stringifyList (y :: rest)

def stringifyFields : Fields → String
  | [] => ""
  | [(k, v)] => "\"" ++ escapeStr k ++ "\":" ++ JValue.stringify v
  | (k, v) :: kv :: rest =>
      "\"" ++ escapeStr k ++ "\":" ++ JValue.stringify v ++ "," ++
        stringifyFields (kv :: rest)
end

/-- `isEqual` from src/utils/helpers.ts:
`JSON.stringify(a) === JSON.stringify(b)`. -/
def isEqual (a b : JValue) : Bool :=
  JValue.stringify a == JValue.stringify b

/-- `cloneObject` from src/utils/helpers.ts is
`JSON.parse(JSON.stringify(obj))`; on JSON-representable values (the
carrier of this model) the round trip is the structural identity.  The
heap model below refines it with explicit fresh allocation. -/
def cloneObject (v : JValue) : JValue := v

/-! ## The value-level Store model (src/store.ts) -/

/-- `SetStateProps` (src/store.ts): `slice?: string; value: T;
replace?: boolean`.  `none` models an omitted (`undefined`) property. -/
structure SetStateProps where
  slice : Option String
  value : JValue
  replace : Option Bool

/-- Everything observable about one `setState` / `createSlice` call:
the value returned or error thrown, the internal state afterwards, the
`(currentState, nextState)` pair handed to `PubSub.publish` (if the call
got that far), and whether `saveStateToLocalStorage` was reached. -/
structure SetStateOutcome where
  result : Except String JValue
  finalState : Fields
  publishArgs : Option (JValue × JValue)
  saveAttempted : Bool

/-- Outcome of a `setState`/`createSlice` call that throws at `msg`
before any mutation: state untouched, no publish, no save. -/
def throwOutcome (internal : Fields) (msg : String) : SetStateOutcome :=
  { result := Except.error msg, finalState := internal,
    publishArgs := none, saveAttempted := false }

/-- Outcome of a successful mutation to internal state `f`: the call
returns `this.state` (a clone of `f`), passes `(this.state, this.state)`
to `publish` — in `setState` deferred via `setTimeout(.., 0)`, in
`createSlice` synchronously — and then saves. -/
def okOutcome (f : Fields) : SetStateOutcome :=
  { result := Except.ok (JValue.obj f), finalState := f,
    publishArgs := some (JValue.obj f, JValue.obj f), saveAttempted := true }

/-- JS truthiness of the optional `slice` string in `if (slice)` /
`!slice`: an omitted slice and the empty string are both falsy. -/
def sliceTruthy : Option String → Option String
  | some s => if s = "" then none else some s
  | none => none

/-- `Store.setState` (src/store.ts lines 200-232), desugared through the
JS truthiness of `slice`.

* No truthy slice and `value` not a plain object: throws
  `'non-slice value must be an object'` before touching anything.
* Truthy slice: the (discarded) merge candidate
  `Object.assign(cloneObject(currentState), cloneObject(value))` is still
  evaluated, so its throw conditions are live — `currentState` is
  `undefined` when the slice is absent (`cloneObject(undefined)` =
  `JSON.parse(undefined)`, a `SyntaxError`), and `Object.assign` with a
  `null` target is a `TypeError`.  Other targets do not throw.  The live
  effect is `this._internalState[slice] = cloneObject(value)`.
* Otherwise `replace === true` installs `value` as the whole state, and
  the remaining case is the spread merge
  `{...this._internalState, ...value}`. -/
def setState (internal : Fields) (props : SetStateProps) : SetStateOutcome :=
  match sliceTruthy props.slice with
  | some s =>
      match objGet internal s with
      | none =>
          throwOutcome internal "SyntaxError: undefined is not valid JSON"
      | some cur =>
          match cur with
          | JValue.null =>
              throwOutcome internal
                "TypeError: Cannot convert undefined or null to object"
          | _ => okOutcome (objSet internal s (cloneObject props.value))
  | none =>
      match props.value with
      | JValue.obj fs =>
          if props.replace = some true then okOutcome fs
          else okOutcome (spreadMerge internal fs)
      | _ => throwOutcome internal "non-slice value must be an object"

/-- `CreateSliceProps` (src/store.ts): `name: string; initialState?: T`. -/
structure CreateSliceProps where
  name : String
  initialState : Option JValue

/-- `Store.createSlice` (src/store.ts lines 241-251): the `isString(name)`
guard always passes for a string-typed name, then
`this._internalState[name] = initialState ?? {}` (nullish coalescing: an
omitted or `null` initial state becomes `{}`), followed by a synchronous
`publish(this.state, this.state)` and a save. -/
def createSlice (internal : Fields) (props : CreateSliceProps) : SetStateOutcome :=
  let v := match props.initialState with
    | none => JValue.obj []
    | some JValue.null => JValue.obj []
    | some w => w
  okOutcome (objSet internal props.name v)

/-- `StoreProps` (src/store.ts): `storeName?: string; replace?: boolean;
initialState: StoreState`. -/
structure StoreProps where
  storeName : Option String
  initialState : JValue
  replace : Option Bool

/-- The process-wide `Store.storeRegistry`, name → internal state of the
registered instance (instances are identified by their registry name;
mutating an instance shows up as updating its entry). -/
abbrev Registry := List (String × Fields)

/-- Everything observable about one `new Store(props)` evaluation: the
internal state of the instance the construction hands back (fresh or
pre-existing), the registry afterwards, and whether the pre-existing
instance was returned in place of a fresh one. -/
structure ConstructOutcome where
  result : Except String Fields
  registry : Registry
  usedExisting : Bool

/-- `Store.constructor` (src/store.ts lines 129-149), in the modelled
environment without `window.localStorage` (both persistence helpers are
no-ops there).

* `initialState` not a plain object: throws
  `'initial state must be an object'`.
* Name defaults to `"appState"` via `??` (nullish, so an empty string
  is kept).
* If the registry has an instance under that name, the constructor calls
  `existingStore.setState({value: initialState, replace})` — synchronous
  through the mutation since the `async` body has no `await` — and
  returns the existing instance; the freshly cloned `this._internalState`
  is discarded with `this`.  That inner `setState` cannot throw: `slice`
  is omitted and `initialState` is already known to be an object.
* Otherwise the fresh instance owns `cloneObject(initialState)` and is
  registered. -/
def constructName (props : StoreProps) : String :=
  match props.storeName with
  | some s => s
  | none => "appState"

/-- The field list of a value the `isObject` guard has already accepted. -/
def objFields : JValue → Fields
  | JValue.obj fs => fs
  | _ => []

def construct (registry : Registry) (props : StoreProps) : ConstructOutcome :=
  if isObject props.initialState = false then
    { result := Except.error "initial state must be an object",
      registry := registry, usedExisting := false }
  else
    match assocGet registry (constructName props) with
    | some existing =>
        { result := Except.ok (setState existing
            { slice := none, value := props.initialState,
              replace := props.replace }).finalState,
          registry := assocSet registry (constructName props) (setState existing
            { slice := none, value := props.initialState,
              replace := props.replace }).finalState,
          usedExisting := true }
    | none =>
        { result := Except.ok (objFields props.initialState),
          registry := assocSet registry (constructName props)
            (objFields props.initialState),
          usedExisting := false }

/-! ## The PubSub model (src/utils/pub-sub.ts, inlined in src/store.ts) -/

/-- One entry of `_callbackList`: the subscriber callback, identified by
its function reference (modelled as a `Nat` identity, since unsubscribe
compares with `!==`), and the selector `config`. -/
structure Subscription where
  callback : Nat
  config : JValue → JValue

/-- The `forEach` body of `publish`: for each item in list order, invoke
`item.callback(nextValue)` — recorded as `(reference, argument)` — exactly
when `isEqual(currentValue, nextValue)` fails. -/
def publishLoop (subs : List Subscription) (cur next : JValue) :
    List (Nat × JValue) :=
  match subs with
  | [] => []
  | item :: rest =>
      if isEqual (item.config cur) (item.config next) then
        publishLoop rest cur next
      else
        (item.callback, item.config next) :: publishLoop rest cur next

/-- `PubSub.publish`: both snapshots must satisfy `isObject`, else the
corresponding error (with the source's wording) is thrown; then the
gated callbacks run in subscription order. -/
def publish (subs : List Subscription) (cur next : JValue) :
    Except String (List (Nat × JValue)) :=
  if isObject cur = false then Except.error "currentState should be and object"
  else if isObject next = false then Except.error "nextState should be and object"
  else Except.ok (publishLoop subs cur next)

/-- `PubSub.subscribe`, after its `typeof ... === 'function'` guards
(always satisfied here, where callback and config are function values by
typing): appends `{callback, config}` to the list. -/
def subscribe (subs : List Subscription) (cb : Nat) (cfg : JValue → JValue) :
    List Subscription :=
  subs ++ [{ callback := cb, config := cfg }]

/-- The unsubscribe closure returned by `subscribe`: applied to the
subscription list current at call time, keeps exactly the items whose
callback reference differs from the registered one. -/
def unsubscribe (cb : Nat) (subs : List Subscription) : List Subscription :=
  subs.filter (fun item => item.callback != cb)

/-! ## Helper lemmas about the primitives -/

theorem assocGet_cons {α : Type} (k' : String) (v' : α) (rest : List (String × α))
    (k : String) :
    assocGet ((k', v') :: rest) k = if k' = k then some v' else assocGet rest k := rfl

theorem assocSet_cons {α : Type} (k' : String) (v' : α) (rest : List (String × α))
    (k : String) (v : α) :
    assocSet ((k', v') :: rest) k v =
      if k' = k then (k', v) :: rest else (k', v') :: assocSet rest k v := rfl

theorem assocGet_assocSet_self {α : Type} (l : List (String × α)) (k : String) (v : α) :
    assocGet (assocSet l k v) k = some v := by
  induction l with
  | nil => simp [assocGet, assocSet]
  | cons hd tl ih =>
      obtain ⟨k', v'⟩ := hd
      by_cases h : k' = k
      · simp [assocSet_cons, assocGet_cons, h]
      · simp [assocSet_cons, assocGet_cons, h, ih]

theorem assocGet_assocSet_ne {α : Type} (l : List (String × α)) (k k' : String) (v : α)
    (h : k' ≠ k) :
    assocGet (assocSet l k v) k' = assocGet l k' := by
  induction l with
  | nil => simp [assocGet, assocSet, Ne.symm h]
  | cons hd tl ih =>
      obtain ⟨k0, v0⟩ := hd
      by_cases hk : k0 = k
      · subst hk
        simp [assocSet_cons, assocGet_cons, Ne.symm h]
      · simp only [assocSet_cons, if_neg hk, assocGet_cons, ih]

theorem assocGet_eq_none {α : Type} (l : List (String × α)) (k : String)
    (h : k ∉ l.map Prod.fst) :
    assocGet l k = none := by
  induction l with
  | nil => rfl
  | cons hd tl ih =>
      obtain ⟨k', v'⟩ := hd
      simp only [List.map_cons, List.mem_cons, not_or] at h
      simp [assocGet_cons, Ne.symm h.1, ih h.2]

theorem mem_keys_of_assocGet {α : Type} (l : List (String × α)) (k : String) (v : α)
    (h : assocGet l k = some v) : k ∈ l.map Prod.fst := by
  induction l with
  | nil => simp [assocGet] at h
  | cons hd tl ih =>
      obtain ⟨k', v'⟩ := hd
      rw [assocGet_cons] at h
      by_cases hk : k' = k
      · simp [hk]
      · rw [if_neg hk] at h
        simp [ih h]

theorem keys_assocSet_of_mem {α : Type} (l : List (String × α)) (k : String) (v : α)
    (h : k ∈ l.map Prod.fst) :
    (assocSet l k v).map Prod.fst = l.map Prod.fst := by
  induction l with
  | nil => simp at h
  | cons hd tl ih =>
      obtain ⟨k', v'⟩ := hd
      by_cases hk : k' = k
      · simp [assocSet_cons, hk]
      · simp only [List.map_cons, List.mem_cons] at h
        rcases h with h | h
        · exact absurd h.symm hk
        · simp [assocSet_cons, if_neg hk, ih h]

theorem spreadMerge_nil (a : Fields) : spreadMerge a [] = a := rfl

theorem spreadMerge_cons (a : Fields) (p : String × JValue) (rest : Fields) :
    spreadMerge a (p :: rest) = spreadMerge (assocSet a p.1 p.2) rest := rfl

/--`{...a, ...b}` read pointwise: a key takes `b`'s value when `b` binds it
(uniquely, as JS object literals do) and `a`'s value otherwise. -/
theorem objGet_spreadMerge : ∀ (b a : Fields), (b.map Prod.fst).Nodup → ∀ k : String,
    objGet (spreadMerge a b) k = ((objGet b k).elim (objGet a k) some)
  | [], a, _, k => by simp [spreadMerge_nil, objGet, assocGet]
  | (k0, v0) :: rest, a, hnd, k => by
      simp only [List.map_cons, List.nodup_cons] at hnd
      rw [spreadMerge_cons]
      rw [objGet_spreadMerge rest (assocSet a k0 v0) hnd.2 k]
      by_cases hk : k0 = k
      · subst hk
        have hrest : objGet rest k0 = none :=
          assocGet_eq_none rest k0 hnd.1
        show ((assocGet rest k0).elim (assocGet (assocSet a k0 v0) k0) some) = _
        rw [show objGet rest k0 = assocGet rest k0 from rfl] at hrest
        rw [hrest, assocGet_assocSet_self]
        simp [objGet, assocGet_cons]
      · show ((assocGet rest k).elim (assocGet (assocSet a k0 v0) k) some) = _
        rw [assocGet_assocSet_ne a k0 k v0 (fun he => hk he.symm)]
        simp [objGet, assocGet_cons, hk]

/-- The gate `isEqual(x, x)` always passes, so a publish whose two
snapshots coincide invokes nobody. -/
theorem publishLoop_self (subs : List Subscription) (v : JValue) :
    publishLoop subs v v = [] := by
  induction subs with
  | nil => rfl
  | cons item rest ih => simp [publishLoop, isEqual, ih]

/-- The `forEach` of `publish` is the filter-then-map of the subscription
list by serialization inequality of the selected values. -/
theorem publishLoop_filter (subs : List Subscription) (cur next : JValue) :
    publishLoop subs cur next =
      (subs.filter fun it =>
          !(JValue.stringify (it.config cur) == JValue.stringify (it.config next))).map
        (fun it => (it.callback, it.config next)) := by
  induction subs with
  | nil => rfl
  | cons item rest ih =>
      by_cases h : JValue.stringify (item.config cur) == JValue.stringify (item.config next)
      · simp [publishLoop, isEqual, h, List.filter_cons, ih]
      · simp only [Bool.not_eq_true] at h
        simp [publishLoop, isEqual, h, List.filter_cons, ih]

theorem publishLoop_mem (subs : List Subscription) (cur next : JValue)
    (p : Nat × JValue) (h : p ∈ publishLoop subs cur next) :
    ∃ it ∈ subs, it.callback = p.1 := by
  induction subs with
  | nil => simp [publishLoop] at h
  | cons item rest ih =>
      rw [publishLoop] at h
      by_cases he : isEqual (item.config cur) (item.config next)
      · rw [if_pos he] at h
        obtain ⟨it, hmem, hcb⟩ := ih h
        exact ⟨it, List.mem_cons_of_mem _ hmem, hcb⟩
      · rw [if_neg he] at h
        rcases List.mem_cons.mp h with h | h
        · exact ⟨item, List.mem_cons_self _ _, by rw [h]⟩
        · obtain ⟨it, hmem, hcb⟩ := ih h
          exact ⟨it, List.mem_cons_of_mem _ hmem, hcb⟩

/-! ## Claim theorems -/

/-- C4: with `slice` absent and `replace` falsy, `setState({value: v})`
succeeds and makes the internal state the shallow union of the previous
mapping and `v`: every key of `v` maps to `v`'s value (overwriting any
same-named key), and every key present only in the previous mapping keeps
its previous value.  (`v` is a plain mapping, so its keys are unique.) -/
theorem setState_merge_is_shallow_union (internal vf : Fields) (r : Option Bool)
    (hr : r ≠ some true) (hnd : (vf.map Prod.fst).Nodup) :
    (setState internal { slice := none, value := JValue.obj vf, replace := r }).result
        = Except.ok (JValue.obj (spreadMerge internal vf)) ∧
    ∀ k : String,
      objGet (setState internal
          { slice := none, value := JValue.obj vf, replace := r }).finalState k
        = ((objGet vf k).elim (objGet internal k) some) := by
  have hset : setState internal { slice := none, value := JValue.obj vf, replace := r }
      = okOutcome (spreadMerge internal vf) := by
    simp [setState, sliceTruthy, hr]
  refine ⟨by rw [hset]; rfl, ?_⟩
  intro k
  rw [hset]
  exact objGet_spreadMerge vf internal hnd k

/-- C4 witness: on state `{b:2}`, `setState({value: {a:1}})` yields a state
carrying both `a = 1` and `b = 2`. -/
theorem setState_merge_is_shallow_union_witness :
    ((none : Option Bool) ≠ some true) ∧
    objGet (setState [("b", JValue.num 2)]
        { slice := none, value := JValue.obj [("a", JValue.num 1)],
          replace := none }).finalState "a" = some (JValue.num 1) ∧
    objGet (setState [("b", JValue.num 2)]
        { slice := none, value := JValue.obj [("a", JValue.num 1)],
          replace := none }).finalState "b" = some (JValue.num 2) :=
  ⟨by decide,
   ((setState_merge_is_shallow_union [("b", JValue.num 2)] [("a", JValue.num 1)]
      none (by decide) (by decide)).2 "a").trans rfl,
   ((setState_merge_is_shallow_union [("b", JValue.num 2)] [("a", JValue.num 1)]
      none (by decide) (by decide)).2 "b").trans rfl⟩

/-- C5: with `slice` absent and `replace: true`, `setState({value: v,
replace: true})` replaces the entire internal state mapping by `v`; every
key absent from `v` is lost, and the call returns `v`'s state. -/
theorem setState_replace_replaces_whole (internal vf : Fields) :
    (setState internal
        { slice := none, value := JValue.obj vf, replace := some true }).finalState = vf ∧
    (setState internal
        { slice := none, value := JValue.obj vf, replace := some true }).result
      = Except.ok (JValue.obj vf) ∧
    ∀ k : String, objGet vf k = none →
      objGet (setState internal
          { slice := none, value := JValue.obj vf, replace := some true }).finalState k
        = none := by
  refine ⟨rfl, rfl, ?_⟩
  intro k hk
  exact hk

/-- C5 witness: on state `{b:2}`, `setState({value: {a:1}, replace: true})`
yields exactly `{a:1}`, with the slice `b` lost. -/
theorem setState_replace_replaces_whole_witness :
    (setState [("b", JValue.num 2)]
        { slice := none, value := JValue.obj [("a", JValue.num 1)],
          replace := some true }).finalState = [("a", JValue.num 1)] ∧
    objGet (setState [("b", JValue.num 2)]
        { slice := none, value := JValue.obj [("a", JValue.num 1)],
          replace := some true }).finalState "b" = none :=
  ⟨(setState_replace_replaces_whole [("b", JValue.num 2)] [("a", JValue.num 1)]).1,
   (setState_replace_replaces_whole [("b", JValue.num 2)] [("a", JValue.num 1)]).2.2
     "b" rfl⟩

/-- C10: when `setState` raises `InvalidArgument` (`slice` omitted, `value`
not a plain mapping), the call is atomic: the internal state is unchanged,
no publish is scheduled and no persistence write is attempted — the throw
happens before any mutation, scheduling or save. -/
theorem setState_invalid_value_atomic (internal : Fields) (props : SetStateProps)
    (hs : props.slice = none) (hv : isObject props.value = false) :
    (setState internal props).result
        = Except.error "non-slice value must be an object" ∧
    (setState internal props).finalState = internal ∧
    (setState internal props).publishArgs = none ∧
    (setState internal props).saveAttempted = false := by
  have h1 : setState internal props
      = throwOutcome internal "non-slice value must be an object" := by
    rcases props with ⟨s, v, r⟩
    simp only at hs hv
    subst hs
    cases v <;> simp_all [setState, sliceTruthy, isObject]
  exact ⟨by rw [h1]; rfl, by rw [h1]; rfl, by rw [h1]; rfl, by rw [h1]; rfl⟩

/-- C10 witness: `setState({value: "oops"})` on state `{b:2}` throws,
leaving the state at `{b:2}` with no publish and no save. -/
theorem setState_invalid_value_atomic_witness :
    (setState [("b", JValue.num 2)]
        { slice := none, value := JValue.str "oops", replace := none }).finalState
      = [("b", JValue.num 2)] ∧
    (setState [("b", JValue.num 2)]
        { slice := none, value := JValue.str "oops", replace := none }).saveAttempted
      = false :=
  ⟨(setState_invalid_value_atomic [("b", JValue.num 2)]
      { slice := none, value := JValue.str "oops", replace := none } rfl rfl).2.1,
   (setState_invalid_value_atomic [("b", JValue.num 2)]
      { slice := none, value := JValue.str "oops", replace := none } rfl rfl).2.2.2⟩

/-- C1 counterexample: the slice name `""` falsifies the claim as stated.
`if (slice)` uses JS truthiness, so `slice = ""` routes the call to the
whole-state merge path: with prior slice `"" = {a:1}` and `v = {b:2}`,
`setState({slice: "", value: v})` leaves `state[""]` at `{a:1}`, which is
not structurally equal (per the store's own `isEqual`) to `{b:2}`. -/
theorem setState_slice_empty_counterexample :
    objGet (setState [("", JValue.obj [("a", JValue.num 1)])]
        { slice := some "", value := JValue.obj [("b", JValue.num 2)],
          replace := none }).finalState ""
      = some (JValue.obj [("a", JValue.num 1)]) ∧
    isEqual (JValue.obj [("a", JValue.num 1)]) (JValue.obj [("b", JValue.num 2)])
      = false :=
  ⟨rfl, by decide⟩

/-- C1 (amended to nonempty slice names): for every store state mapping a
nonempty slice name `s` to some mapping, and every mapping `v`,
`setState({slice: s, value: v})` replaces the slice's prior value with `v`
itself (no merge), and the `replace` flag has no effect on the call. -/
theorem setState_slice_replaces (internal : Fields) (s : String) (w vf : Fields)
    (r : Option Bool) (hs : s ≠ "")
    (hget : objGet internal s = some (JValue.obj w)) :
    (setState internal { slice := some s, value := JValue.obj vf, replace := r }).finalState
        = objSet internal s (JValue.obj vf) ∧
    objGet (setState internal
        { slice := some s, value := JValue.obj vf, replace := r }).finalState s
      = some (JValue.obj vf) ∧
    setState internal { slice := some s, value := JValue.obj vf, replace := r }
      = setState internal { slice := some s, value := JValue.obj vf, replace := none } := by
  have hset : ∀ r' : Option Bool,
      setState internal { slice := some s, value := JValue.obj vf, replace := r' }
        = okOutcome (objSet internal s (JValue.obj vf)) := by
    intro r'
    simp [setState, sliceTruthy, hs, hget, cloneObject]
  refine ⟨by rw [hset r]; rfl, ?_, (hset r).trans (hset none).symm⟩
  rw [hset r]
  exact assocGet_assocSet_self internal s (JValue.obj vf)

/-- C1 witness: prior `x = {a:1}`, `v = {b:2}`, with `replace: true`
supplied and ignored — `state.x` ends at `{b:2}`. -/
theorem setState_slice_replaces_witness :
    ("x" ≠ "") ∧
    objGet (setState [("x", JValue.obj [("a", JValue.num 1)])]
        { slice := some "x", value := JValue.obj [("b", JValue.num 2)],
          replace := some true }).finalState "x"
      = some (JValue.obj [("b", JValue.num 2)]) :=
  ⟨by decide,
   (setState_slice_replaces [("x", JValue.obj [("a", JValue.num 1)])] "x"
      [("a", JValue.num 1)] [("b", JValue.num 2)] (some true) (by decide) rfl).2.1⟩

/-- Any `setState` call either throws before mutating (a `throwOutcome`)
or completes as a full successful mutation (an `okOutcome`). -/
theorem setState_shape (internal : Fields) (props : SetStateProps) :
    (∃ msg, setState internal props = throwOutcome internal msg) ∨
    (∃ f, setState internal props = okOutcome f) := by
  unfold setState
  split
  · split
    · exact Or.inl ⟨_, rfl⟩
    · rename_i cur _
      cases cur
      case null => exact Or.inl ⟨_, rfl⟩
      all_goals exact Or.inr ⟨_, rfl⟩
  · split
    · split
      · exact Or.inr ⟨_, rfl⟩
      · exact Or.inr ⟨_, rfl⟩
    · exact Or.inl ⟨_, rfl⟩

/-- C2: constructing `new Store` with a `storeName` already present in the
registry creates no second instance: the existing instance's `setState`
runs with `{value: initialState, replace}`, the pre-existing instance is
the one handed back, its registry entry (the object the first reference
aliases) carries the mutation, and no registry entry is added. -/
theorem construct_existing_shares_instance (registry : Registry) (n : String)
    (ex i : Fields) (r : Option Bool)
    (hreg : assocGet registry n = some ex) :
    (construct registry
        { storeName := some n, initialState := JValue.obj i, replace := r }).usedExisting
      = true ∧
    (construct registry
        { storeName := some n, initialState := JValue.obj i, replace := r }).result
      = Except.ok ((setState ex
          { slice := none, value := JValue.obj i, replace := r }).finalState) ∧
    assocGet (construct registry
        { storeName := some n, initialState := JValue.obj i, replace := r }).registry n
      = some ((setState ex
          { slice := none, value := JValue.obj i, replace := r }).finalState) ∧
    ((construct registry
        { storeName := some n, initialState := JValue.obj i, replace := r }).registry).map
        Prod.fst
      = registry.map Prod.fst := by
  have hc : construct registry
      { storeName := some n, initialState := JValue.obj i, replace := r }
      = { result := Except.ok ((setState ex
            { slice := none, value := JValue.obj i, replace := r }).finalState),
          registry := assocSet registry n ((setState ex
            { slice := none, value := JValue.obj i, replace := r }).finalState),
          usedExisting := true } := by
    simp [construct, isObject, constructName, hreg]
  refine ⟨by rw [hc], by rw [hc], ?_, ?_⟩
  · rw [hc]
    exact assocGet_assocSet_self registry n _
  · rw [hc]
    exact keys_assocSet_of_mem registry n _ (mem_keys_of_assocGet registry n ex hreg)

/-- C2 witness: a registry holding `"s" ↦ {a:1}`; re-constructing `"s"`
with initial state `{b:2}` returns the existing instance, now merged. -/
theorem construct_existing_shares_instance_witness :
    (construct [("s", [("a", JValue.num 1)])]
        { storeName := some "s", initialState := JValue.obj [("b", JValue.num 2)],
          replace := none }).usedExisting = true ∧
    assocGet (construct [("s", [("a", JValue.num 1)])]
        { storeName := some "s", initialState := JValue.obj [("b", JValue.num 2)],
          replace := none }).registry "s"
      = some [("a", JValue.num 1), ("b", JValue.num 2)] :=
  ⟨(construct_existing_shares_instance [("s", [("a", JValue.num 1)])] "s"
      [("a", JValue.num 1)] [("b", JValue.num 2)] none rfl).1,
   ((construct_existing_shares_instance [("s", [("a", JValue.num 1)])] "s"
      [("a", JValue.num 1)] [("b", JValue.num 2)] none rfl).2.2.1).trans rfl⟩

/-- C9: `new Store` fails with `InvalidArgument` exactly when
`initialState` is not a plain mapping — that is, when it is null, a
boolean, a number, a string (such as `"not an object"`), or an array;
for every plain-mapping `initialState` no such error is raised. -/
theorem construct_invalid_initial_state (registry : Registry) (props : StoreProps) :
    ((construct registry props).result = Except.error "initial state must be an object"
        ↔ isObject props.initialState = false) ∧
    (isObject props.initialState = false ↔
        (props.initialState = JValue.null ∨
         (∃ b, props.initialState = JValue.bool b) ∨
         (∃ m, props.initialState = JValue.num m) ∨
         (∃ s, props.initialState = JValue.str s) ∨
         (∃ xs, props.initialState = JValue.arr xs))) := by
  have hok : isObject props.initialState = true →
      ∃ f, (construct registry props).result = Except.ok f := by
    intro hobj
    unfold construct
    rw [if_neg (by simp [hobj])]
    rcases h : assocGet registry (constructName props) with _ | ex <;> simp [h]
  constructor
  · constructor
    · intro h
      cases hb : isObject props.initialState with
      | false => rfl
      | true =>
          obtain ⟨f, hf⟩ := hok hb
          exact Except.noConfusion (hf.symm.trans h)
    · intro h
      unfold construct
      rw [if_pos h]
  · cases props.initialState <;> simp [isObject]

/-- C3: notifications fired from `setState` or `createSlice` can never
invoke a subscriber callback: both call sites pass the same post-mutation
snapshot as the `currentState` and `nextState` arguments of `publish`, so
the `isEqual` gate holds for every deterministic selector and the
callback list of invocations is empty. -/
theorem mutation_notifications_never_fire (internal : Fields)
    (props : SetStateProps) (cprops : CreateSliceProps)
    (subs : List Subscription) (c n : JValue) :
    ((setState internal props).publishArgs = some (c, n) →
        publish subs c n = Except.ok []) ∧
    ((createSlice internal cprops).publishArgs = some (c, n) →
        publish subs c n = Except.ok []) := by
  have key : ∀ f : Fields, publish subs (JValue.obj f) (JValue.obj f) = Except.ok [] := by
    intro f
    simp [publish, isObject, publishLoop_self]
  have ofOk : ∀ f : Fields, (okOutcome f).publishArgs = some (c, n) →
      publish subs c n = Except.ok [] := by
    intro f hargs
    simp only [okOutcome] at hargs
    injection hargs with hpair
    injection hpair with hc hn
    rw [← hc, ← hn]
    exact key f
  constructor
  · intro hargs
    rcases setState_shape internal props with ⟨msg, hm⟩ | ⟨f, hm⟩
    · rw [hm] at hargs
      exact Option.noConfusion hargs
    · rw [hm] at hargs
      exact ofOk f hargs
  · intro hargs
    exact ofOk _ hargs

/-- C3 witness: a publish with the snapshot pair produced by a concrete
`setState` — both components `{a:1}` — invokes nobody. -/
theorem mutation_notifications_never_fire_witness :
    publish [{ callback := 1, config := fun v => v }]
        (JValue.obj [("a", JValue.num 1)]) (JValue.obj [("a", JValue.num 1)])
      = Except.ok [] :=
  (mutation_notifications_never_fire [("a", JValue.num 1)]
      { slice := none, value := JValue.obj [], replace := none }
      { name := "c", initialState := none }
      [{ callback := 1, config := fun v => v }]
      (JValue.obj [("a", JValue.num 1)]) (JValue.obj [("a", JValue.num 1)])).1 rfl

/-- C6: `publish(current, next)` fails with `InvalidArgument` when either
argument is not a plain mapping; otherwise it walks the subscriptions in
insertion order and invokes `callback(selector(next))` exactly for the
subscriptions whose selected values have different JSON serializations —
identical serializations are filtered out. -/
theorem publish_invokes_changed_in_order (subs : List Subscription)
    (cur next : JValue) :
    (isObject cur = false →
        publish subs cur next = Except.error "currentState should be and object") ∧
    (isObject cur = true → isObject next = false →
        publish subs cur next = Except.error "nextState should be and object") ∧
    (isObject cur = true → isObject next = true →
        publish subs cur next = Except.ok
          ((subs.filter fun it =>
              !(JValue.stringify (it.config cur) == JValue.stringify (it.config next))).map
            (fun it => (it.callback, it.config next)))) := by
  refine ⟨?_, ?_, ?_⟩
  · intro h
    simp [publish, h]
  · intro h1 h2
    simp [publish, h1, h2]
  · intro h1 h2
    simp [publish, h1, h2, publishLoop_filter]

/-- C6 witness: on snapshots `{a:1}` and `{a:2}` with a changing selector
(id 1) before a constant selector (id 2), only subscriber 1 is invoked,
with the selected next value. -/
theorem publish_invokes_changed_in_order_witness :
    publish
      [{ callback := 1,
         config := fun v => match v with
           | JValue.obj fs => (objGet fs "a").elim JValue.null (fun x => x)
           | _ => JValue.null },
       { callback := 2, config := fun _ => JValue.num 7 }]
      (JValue.obj [("a", JValue.num 1)]) (JValue.obj [("a", JValue.num 2)])
      = Except.ok [(1, JValue.num 2)] :=
  ((publish_invokes_changed_in_order
      [{ callback := 1,
         config := fun v => match v with
           | JValue.obj fs => (objGet fs "a").elim JValue.null (fun x => x)
           | _ => JValue.null },
       { callback := 2, config := fun _ => JValue.num 7 }]
      (JValue.obj [("a", JValue.num 1)]) (JValue.obj [("a", JValue.num 2)])).2.2
    rfl rfl).trans rfl

/-- C7: the unsubscribe closure returned by `subscribe(cb, selector)`
removes exactly the entries whose callback reference equals `cb`,
preserving the relative order of the rest; registering the same callback
reference twice and unsubscribing once removes both; and no later
`publish` on the filtered list ever invokes the removed callback. -/
theorem unsubscribe_removes_all_matching (cb : Nat) (subs : List Subscription) :
    (∀ it ∈ unsubscribe cb subs, it.callback ≠ cb) ∧
    (unsubscribe cb subs).Sublist subs ∧
    (∀ it ∈ subs, it.callback ≠ cb → it ∈ unsubscribe cb subs) ∧
    (∀ f g : JValue → JValue,
        unsubscribe cb (subscribe (subscribe subs cb f) cb g) = unsubscribe cb subs) ∧
    (∀ cur next out, publish (unsubscribe cb subs) cur next = Except.ok out →
        ∀ p ∈ out, p.1 ≠ cb) := by
  refine ⟨?_, ?_, ?_, ?_, ?_⟩
  · intro it hit
    have := (List.mem_filter.mp hit).2
    simpa using this
  · exact List.filter_sublist subs
  · intro it hit hne
    exact List.mem_filter.mpr ⟨hit, by simpa using hne⟩
  · intro f g
    simp [unsubscribe, subscribe, List.filter_append]
  · intro cur next out hpub p hp
    have hout : out = publishLoop (unsubscribe cb subs) cur next := by
      by_cases h1 : isObject cur = false
      · simp [publish, h1] at hpub
      · by_cases h2 : isObject next = false
        · simp only [Bool.not_eq_false] at h1
          simp [publish, h1, h2] at hpub
        · simp only [Bool.not_eq_false] at h1 h2
          simp [publish, h1, h2] at hpub
          exact hpub.symm
    rw [hout] at hp
    obtain ⟨it, hmem, hcb⟩ := publishLoop_mem _ cur next p hp
    have := (List.mem_filter.mp hmem).2
    rw [← hcb]
    simpa using this

/-- C7 witness: unsubscribing callback 1 after registering it twice with
different selectors empties the list, and an entry with callback 2
survives unsubscribing callback 1. -/
theorem unsubscribe_removes_all_matching_witness :
    unsubscribe 1 (subscribe (subscribe [] 1 (fun v => v)) 1 (fun _ => JValue.null))
      = [] ∧
    ({ callback := 2, config := fun v => v } : Subscription)
      ∈ unsubscribe 1
          [{ callback := 1, config := fun v => v },
           { callback := 2, config := fun v => v }] :=
  ⟨((unsubscribe_removes_all_matching 1 []).2.2.2.1 (fun v => v)
      (fun _ => JValue.null)).trans rfl,
   (unsubscribe_removes_all_matching 1
      [{ callback := 1, config := fun v => v },
       { callback := 2, config := fun v => v }]).2.2.1
     { callback := 2, config := fun v => v }
     (List.mem_cons_of_mem _ (List.mem_cons_self _ _))
     (by decide)⟩

/-! ## Heap model: object identity and the clone boundary (C8)

JS objects are mutable heap nodes; a variable holds a primitive or a
reference.  `cloneObject` = `JSON.parse(JSON.stringify(v))` reads the
value's JSON snapshot and rebuilds it in freshly allocated nodes, so a
clone shares no address with any pre-existing object.  `fuel` bounds
recursion depth; exhaustion (`none`) corresponds to `JSON.stringify`
throwing on a cyclic value. -/

/-- A heap address. -/
abbrev Addr := Nat

/-- A JS runtime value: a JSON primitive or a reference to a heap node. -/
inductive HVal where
  | null : HVal
  | bool : Bool → HVal
  | num : Int → HVal
  | str : String → HVal
  | ref : Addr → HVal
deriving DecidableEq

/-- A heap node: a plain object or an array. -/
inductive HNode where
  | obj : List (String × HVal) → HNode
  | arr : List HVal → HNode

/-- Address-keyed association list primitives for the heap. -/
def heapGet : List (Addr × HNode) → Addr → Option HNode
  | [], _ => none
  | (a', n') :: rest, a => if a' = a then some n' else heapGet rest a

def heapSet : List (Addr × HNode) → Addr → HNode → List (Addr × HNode)
  | [], a, n => [(a, n)]
  | (a', n') :: rest, a, n =>
      if a' = a then (a', n) :: rest else (a', n') :: heapSet rest a n

/-- A heap: the next fresh address and the allocated nodes. -/
structure Heap where
  next : Addr
  mem : List (Addr × HNode)

def Heap.lookup (h : Heap) (a : Addr) : Option HNode := heapGet h.mem a

/-- In-place mutation of the node at `a` (JS property assignment on a
shared object). -/
def Heap.update (h : Heap) (a : Addr) (n : HNode) : Heap :=
  { next := h.next, mem := heapSet h.mem a n }

/-- Allocation of a fresh node at address `h.next`. -/
def Heap.alloc (h : Heap) (n : HNode) : Heap × Addr :=
  ({ next := h.next + 1, mem := heapSet h.mem h.next n }, h.next)

/-- String-keyed association primitives on heap-object fields
(same JS property semantics as `assocGet`/`assocSet`). -/
def hAssocGet : List (String × HVal) → String → Option HVal
  | [], _ => none
  | (k', v') :: rest, k => if k' = k then some v' else hAssocGet rest k

def hAssocSet : List (String × HVal) → String → HVal → List (String × HVal)
  | [], k, v => [(k, v)]
  | (k', v') :: rest, k, v =>
      if k' = k then (k', v) :: rest else (k', v') :: hAssocSet rest k v

/-- Traverse object fields with an element reader, failing if any field
fails (the list part of `JSON.stringify`'s recursion). -/
def optFields (f : HVal → Option JValue) :
    List (String × HVal) → Option (List (String × JValue))
  | [] => some []
  | (k, v) :: rest =>
      match f v, optFields f rest with
      | some j, some js => some ((k, j) :: js)
      | _, _ => none

/-- Traverse array elements with an element reader. -/
def optList (f : HVal → Option JValue) : List HVal → Option (List JValue)
  | [] => some []
  | v :: rest =>
      match f v, optList f rest with
      | some j, some js => some (j :: js)
      | _, _ => none

/-- The JSON snapshot of a runtime value (`JSON.stringify` then parse):
dereferences the heap to depth `fuel`; exhaustion models the stringify
throw on cyclic structures. -/
def hRead : Nat → Heap → HVal → Option JValue
  | _, _, HVal.null => some JValue.null
  | _, _, HVal.bool b => some (JValue.bool b)
  | _, _, HVal.num n => some (JValue.num n)
  | _, _, HVal.str s => some (JValue.str s)
  | 0, _, HVal.ref _ => none
  | fuel + 1, h, HVal.ref a =>
      match h.lookup a with
      | none => none
      | some (HNode.obj fs) => (optFields (hRead fuel h) fs).map JValue.obj
      | some (HNode.arr es) => (optList (hRead fuel h) es).map JValue.arr

/-- Thread a cloning step over object fields, accumulating the heap. -/
def cloneFields (f : Heap → HVal → Option (Heap × HVal)) :
    Heap → List (String × HVal) → Option (Heap × List (String × HVal))
  | h, [] => some (h, [])
  | h, (k, v) :: rest =>
      match f h v with
      | none => none
      | some (h1, v1) =>
          match cloneFields f h1 rest with
          | none => none
          | some (h2, rest2) => some (h2, (k, v1) :: rest2)

/-- Thread a cloning step over array elements, accumulating the heap. -/
def cloneList (f : Heap → HVal → Option (Heap × HVal)) :
    Heap → List HVal → Option (Heap × List HVal)
  | h, [] => some (h, [])
  | h, v :: rest =>
      match f h v with
      | none => none
      | some (h1, v1) =>
          match cloneList f h1 rest with
          | none => none
          | some (h2, rest2) => some (h2, v1 :: rest2)

/-- `cloneObject` on the heap: the serialize/parse round trip deep-copies
the structure reachable from `v` into freshly allocated nodes, sharing no
address with any pre-existing object. -/
def hClone : Nat → Heap → HVal → Option (Heap × HVal)
  | _, h, HVal.null => some (h, HVal.null)
  | _, h, HVal.bool b => some (h, HVal.bool b)
  | _, h, HVal.num n => some (h, HVal.num n)
  | _, h, HVal.str s => some (h, HVal.str s)
  | 0, _, HVal.ref _ => none
  | fuel + 1, h, HVal.ref a =>
      match h.lookup a with
      | none => none
      | some (HNode.obj fs) =>
          match cloneFields (hClone fuel) h fs with
          | none => none
          | some (h1, fs1) =>
              some ({ next := h1.next + 1,
                      mem := heapSet h1.mem h1.next (HNode.obj fs1) },
                    HVal.ref h1.next)
      | some (HNode.arr es) =>
          match cloneList (hClone fuel) h es with
          | none => none
          | some (h1, es1) =>
              some ({ next := h1.next + 1,
                      mem := heapSet h1.mem h1.next (HNode.arr es1) },
                    HVal.ref h1.next)

/-- `isObject` on a runtime value: a reference to a plain-object node
(arrays and primitives excluded, as in the helper). -/
def hIsObject (h : Heap) (v : HVal) : Bool :=
  match v with
  | HVal.ref a =>
      match h.lookup a with
      | some (HNode.obj _) => true
      | _ => false
  | _ => false

/-- `{...a, ...b}` on heap-object fields: top-level keys are copied but
the field VALUES (references) are shared with both sources. -/
def hSpreadMerge (a b : List (String × HVal)) : List (String × HVal) :=
  b.foldl (fun acc kv => hAssocSet acc kv.1 kv.2) a

/-- `Store.setState` on the heap, for a store whose `_internalState` is
the object node at `internal`; returns `(heap, internal)` after the call,
`none` collapsing every throw.  The three paths mirror the source:

* truthy slice: the live effect is
  `this._internalState[slice] = cloneObject(value)` — the node at
  `internal` is mutated in place, its slice field set to a fresh deep
  clone of `value`; absent or `null` prior slice values throw through the
  dead merge-candidate computation, as in the value model;
* `replace === true`: `this._internalState = value` — the store's
  internal reference is REBOUND to the caller's own object, with no
  clone;
* otherwise the spread `{...this._internalState, ...value}` allocates a
  fresh top-level node whose field values are shared references. -/
def hSetState (fuel : Nat) (h : Heap) (internal : Addr) (slice : Option String)
    (value : HVal) (replace : Option Bool) : Option (Heap × Addr) :=
  match sliceTruthy slice with
  | some s =>
      match h.lookup internal with
      | some (HNode.obj fs) =>
          match hAssocGet fs s with
          | none => none
          | some cur =>
              if cur = HVal.null then none
              else
                match hClone fuel h value with
                | none => none
                | some (h1, v1) =>
                    match h1.lookup internal with
                    | some (HNode.obj fs1) =>
                        some (h1.update internal (HNode.obj (hAssocSet fs1 s v1)),
                              internal)
                    | _ => none
      | _ => none
  | none =>
      if hIsObject h value = false then none
      else
        match value with
        | HVal.ref b =>
            if replace = some true then
              some (h, b)
            else
              match h.lookup internal, h.lookup b with
              | some (HNode.obj fs), some (HNode.obj bfs) =>
                  some ({ next := h.next + 1,
                          mem := heapSet h.mem h.next
                            (HNode.obj (hSpreadMerge fs bfs)) }, h.next)
              | _, _ => none
        | _ => none

/-- `Store.createSlice` on the heap (src/store.ts lines 241-251):
`this._internalState[name] = initialState ?? {}` mutates the internal
object in place.  A supplied non-null `initialState` is stored by
REFERENCE, with no clone; an omitted (`undefined`) or `null` initial
state stores a reference to a freshly allocated empty object literal. -/
def hCreateSlice (h : Heap) (internal : Addr) (name : String)
    (initialState : Option HVal) : Option (Heap × Addr) :=
  match h.lookup internal with
  | some (HNode.obj fs) =>
      match initialState with
      | none =>
          some ({ next := h.next + 1,
                  mem := heapSet (heapSet h.mem h.next (HNode.obj []))
                    internal (HNode.obj (hAssocSet fs name (HVal.ref h.next))) },
                internal)
      | some HVal.null =>
          some ({ next := h.next + 1,
                  mem := heapSet (heapSet h.mem h.next (HNode.obj []))
                    internal (HNode.obj (hAssocSet fs name (HVal.ref h.next))) },
                internal)
      | some v =>
          some (h.update internal (HNode.obj (hAssocSet fs name v)), internal)
  | _ => none

/-- The observable `state.x` (what the `state` getter's clone of slice `s`
denotes structurally): the JSON snapshot of slice `s` of the store's
internal object. -/
def observeSlice (g : Nat) (h : Heap) (internal : Addr) (s : String) :
    Option JValue :=
  match h.lookup internal with
  | some (HNode.obj fs) =>
      match hAssocGet fs s with
      | none => none
      | some v => hRead g h v
  | _ => none

/-- The observable whole state: the JSON snapshot of the internal object. -/
def observeState (g : Nat) (h : Heap) (internal : Addr) : Option JValue :=
  hRead g h (HVal.ref internal)

/-- The `state` getter on the heap: a deep clone of the internal object. -/
def hStateGet (fuel : Nat) (h : Heap) (internal : Addr) : Option (Heap × HVal) :=
  hClone fuel h (HVal.ref internal)

/-! ### Address-range predicates and heap well-formedness -/

/-- The reference of `v`, if any, satisfies `A` (primitives trivially do). -/
def valIn (A : Addr → Prop) : HVal → Prop
  | HVal.ref a => A a
  | _ => True

/-- Every value held by the node satisfies `valIn A`. -/
def nodeIn (A : Addr → Prop) : HNode → Prop
  | HNode.obj fs => ∀ kv ∈ fs, valIn A kv.2
  | HNode.arr es => ∀ v ∈ es, valIn A v

/-- Decidable variant: the reference of `v`, if any, is below `bound`. -/
def valLo (bound : Addr) : HVal → Bool
  | HVal.ref a => decide (a < bound)
  | _ => true

def nodeLo (bound : Addr) : HNode → Bool
  | HNode.obj fs => fs.all fun kv => valLo bound kv.2
  | HNode.arr es => es.all (valLo bound)

/-- Decidable heap well-formedness: every allocated node sits below
`next` and references only below `next`. -/
def Heap.wfB (h : Heap) : Bool :=
  h.mem.all fun e => decide (e.1 < h.next) && nodeLo h.next e.2

/-- Propositional heap well-formedness, as used by the frame lemmas. -/
def Heap.wfP (h : Heap) : Prop :=
  ∀ a n, Heap.lookup h a = some n →
    a < h.next ∧ nodeIn (fun x => x < h.next) n

/-! ### Heap primitive lemmas -/

theorem heapGet_cons (a' : Addr) (n' : HNode) (rest : List (Addr × HNode))
    (a : Addr) :
    heapGet ((a', n') :: rest) a = if a' = a then some n' else heapGet rest a := rfl

theorem heapSet_cons (a' : Addr) (n' : HNode) (rest : List (Addr × HNode))
    (a : Addr) (n : HNode) :
    heapSet ((a', n') :: rest) a n =
      if a' = a then (a', n) :: rest else (a', n') :: heapSet rest a n := rfl

theorem heapGet_heapSet_self (l : List (Addr × HNode)) (a : Addr) (n : HNode) :
    heapGet (heapSet l a n) a = some n := by
  induction l with
  | nil => simp [heapGet, heapSet]
  | cons hd tl ih =>
      obtain ⟨a', n'⟩ := hd
      by_cases h : a' = a
      · simp [heapSet_cons, heapGet_cons, h]
      · simp [heapSet_cons, heapGet_cons, h, ih]

theorem heapGet_heapSet_ne (l : List (Addr × HNode)) (a b : Addr) (n : HNode)
    (h : b ≠ a) :
    heapGet (heapSet l a n) b = heapGet l b := by
  induction l with
  | nil => simp [heapGet, heapSet, Ne.symm h]
  | cons hd tl ih =>
      obtain ⟨a', n'⟩ := hd
      by_cases ha : a' = a
      · subst ha
        simp [heapSet_cons, heapGet_cons, Ne.symm h]
      · simp only [heapSet_cons, if_neg ha, heapGet_cons, ih]

theorem heapGet_mem (l : List (Addr × HNode)) (a : Addr) (n : HNode)
    (h : heapGet l a = some n) : (a, n) ∈ l := by
  induction l with
  | nil => simp [heapGet] at h
  | cons hd tl ih =>
      obtain ⟨a', n'⟩ := hd
      rw [heapGet_cons] at h
      by_cases ha : a' = a
      · rw [if_pos ha] at h
        injection h with h
        subst ha
        rw [h]
        exact List.mem_cons_self _ _
      · rw [if_neg ha] at h
        exact List.mem_cons_of_mem _ (ih h)

theorem Heap.lookup_update_self (h : Heap) (a : Addr) (n : HNode) :
    (h.update a n).lookup a = some n :=
  heapGet_heapSet_self h.mem a n

theorem Heap.lookup_update_ne (h : Heap) (a b : Addr) (n : HNode) (hne : b ≠ a) :
    (h.update a n).lookup b = h.lookup b :=
  heapGet_heapSet_ne h.mem a b n hne

theorem valLo_valIn (bound : Addr) (v : HVal) (h : valLo bound v = true) :
    valIn (fun x => x < bound) v := by
  cases v <;> simp_all [valLo, valIn]

theorem nodeLo_nodeIn (bound : Addr) (n : HNode) (h : nodeLo bound n = true) :
    nodeIn (fun x => x < bound) n := by
  cases n with
  | obj fs =>
      intro kv hkv
      exact valLo_valIn bound kv.2 (by
        have := (List.all_eq_true.mp h) kv hkv
        simpa using this)
  | arr es =>
      intro v hv
      exact valLo_valIn bound v (by
        have := (List.all_eq_true.mp h) v hv
        simpa using this)

/-- The decidable well-formedness check implies the propositional one. -/
theorem wfB_wfP (h : Heap) (hw : Heap.wfB h = true) : Heap.wfP h := by
  intro a n hl
  have hm : (a, n) ∈ h.mem := heapGet_mem h.mem a n hl
  have := (List.all_eq_true.mp hw) (a, n) hm
  simp only [Bool.and_eq_true, decide_eq_true_eq] at this
  exact ⟨this.1, nodeLo_nodeIn h.next n this.2⟩

theorem valIn_mono {A B : Addr → Prop} (hab : ∀ x, A x → B x) (v : HVal)
    (h : valIn A v) : valIn B v := by
  cases v with
  | ref a => exact hab a h
  | null => trivial
  | bool b => trivial
  | num n => trivial
  | str s => trivial

theorem nodeIn_mono {A B : Addr → Prop} (hab : ∀ x, A x → B x) (n : HNode)
    (h : nodeIn A n) : nodeIn B n := by
  cases n with
  | obj fs => exact fun kv hkv => valIn_mono hab kv.2 (h kv hkv)
  | arr es => exact fun v hv => valIn_mono hab v (h v hv)

theorem optFields_congr (f g : HVal → Option JValue)
    (l : List (String × HVal)) (h : ∀ kv ∈ l, f kv.2 = g kv.2) :
    optFields f l = optFields g l := by
  induction l with
  | nil => rfl
  | cons kv rest ih =>
      obtain ⟨k, v⟩ := kv
      simp only [optFields]
      rw [h (k, v) (List.mem_cons_self _ _),
        ih (fun x hx => h x (List.mem_cons_of_mem _ hx))]

theorem optList_congr (f g : HVal → Option JValue)
    (l : List HVal) (h : ∀ v ∈ l, f v = g v) :
    optList f l = optList g l := by
  induction l with
  | nil => rfl
  | cons v rest ih =>
      simp only [optList]
      rw [h v (List.mem_cons_self _ _),
        ih (fun x hx => h x (List.mem_cons_of_mem _ hx))]

/-- Frame lemma: reading a value whose references stay inside an
address set `A` that is closed under dereferencing gives the same
snapshot in any heap agreeing with the base heap on `A`. -/
theorem hRead_agree (A : Addr → Prop) (hbase hoth : Heap)
    (hagree : ∀ a, A a → Heap.lookup hoth a = Heap.lookup hbase a)
    (hclosed : ∀ a n, A a → Heap.lookup hbase a = some n → nodeIn A n) :
    ∀ (fuel : Nat) (v : HVal), valIn A v →
      hRead fuel hoth v = hRead fuel hbase v := by
  intro fuel
  induction fuel with
  | zero => intro v hv; cases v <;> rfl
  | succ g ih =>
      intro v hv
      cases v with
      | null => rfl
      | bool b => rfl
      | num n => rfl
      | str s => rfl
      | ref a =>
          have ha : A a := hv
          show hRead (g + 1) hoth (HVal.ref a) = hRead (g + 1) hbase (HVal.ref a)
          simp only [hRead]
          rw [hagree a ha]
          cases hl : Heap.lookup hbase a with
          | none => rfl
          | some node =>
              cases node with
              | obj fs =>
                  have hcl := hclosed a _ ha hl
                  simp only []
                  rw [optFields_congr (hRead g hoth) (hRead g hbase) fs
                    (fun kv hkv => ih kv.2 (hcl kv hkv))]
              | arr es =>
                  have hcl := hclosed a _ ha hl
                  simp only []
                  rw [optList_congr (hRead g hoth) (hRead g hbase) es
                    (fun x hx => ih x (hcl x hx))]

/-- The specification of `hClone` at a given fuel: cloning from a
well-formed heap extends the heap with only fresh nodes, leaves every
pre-existing address untouched, returns a value confined (with all nodes
it can reach) to the freshly allocated segment, preserves
well-formedness, and denotes the same JSON snapshot as the original. -/
def CloneOk (fuel : Nat) : Prop :=
  ∀ (h : Heap) (v : HVal) (h2 : Heap) (v2 : HVal),
    Heap.wfP h → valIn (fun x => x < h.next) v →
    hClone fuel h v = some (h2, v2) →
    h.next ≤ h2.next ∧
    (∀ a, a < h.next → Heap.lookup h2 a = Heap.lookup h a) ∧
    valIn (fun x => h.next ≤ x ∧ x < h2.next) v2 ∧
    (∀ a n, h.next ≤ a → a < h2.next → Heap.lookup h2 a = some n →
        nodeIn (fun x => h.next ≤ x ∧ x < h2.next) n) ∧
    Heap.wfP h2 ∧
    (∀ g, hRead g h2 v2 = hRead g h v)

theorem cloneFields_ok (g : Nat) (hg : CloneOk g) :
    ∀ (fs : List (String × HVal)) (h0 hB : Heap) (fs1 : List (String × HVal)),
      Heap.wfP h0 → (∀ kv ∈ fs, valIn (fun x => x < h0.next) kv.2) →
      cloneFields (hClone g) h0 fs = some (hB, fs1) →
      h0.next ≤ hB.next ∧
      (∀ a, a < h0.next → Heap.lookup hB a = Heap.lookup h0 a) ∧
      (∀ kv ∈ fs1, valIn (fun x => h0.next ≤ x ∧ x < hB.next) kv.2) ∧
      (∀ a n, h0.next ≤ a → a < hB.next → Heap.lookup hB a = some n →
          nodeIn (fun x => h0.next ≤ x ∧ x < hB.next) n) ∧
      Heap.wfP hB ∧
      (∀ g', optFields (hRead g' hB) fs1 = optFields (hRead g' h0) fs) := by
  intro fs
  induction fs with
  | nil =>
      intro h0 hB fs1 hwf0 hvals hcf
      injection hcf with hp
      injection hp with hh hfs
      subst hh; subst hfs
      refine ⟨le_refl _, fun a _ => rfl,
        fun kv hkv => absurd hkv (List.not_mem_nil _), ?_, hwf0, fun g' => rfl⟩
      intro a n ha1 ha2 _
      exact absurd ha2 (not_lt.mpr ha1)
  | cons kv0 rest ih =>
      obtain ⟨k, v⟩ := kv0
      intro h0 hB fs1 hwf0 hvals hcf
      simp only [cloneFields] at hcf
      cases hc1 : hClone g h0 v with
      | none => rw [hc1] at hcf; exact Option.noConfusion hcf
      | some pA =>
          obtain ⟨hA, v1⟩ := pA
          simp only [hc1] at hcf
          cases hc2 : cloneFields (hClone g) hA rest with
          | none => rw [hc2] at hcf; exact Option.noConfusion hcf
          | some pB =>
              obtain ⟨hB2, rest1⟩ := pB
              simp only [hc2] at hcf
              injection hcf with hp
              injection hp with hh hfs
              subst hh; subst hfs
              obtain ⟨le1, pres1, vin1, closed1, wfA, read1⟩ :=
                hg h0 v hA v1 hwf0 (hvals (k, v) (List.mem_cons_self _ _)) hc1
              obtain ⟨le2, pres2, vin2, closed2, wfB2, read2⟩ :=
                ih hA hB2 rest1 wfA
                  (fun kv2 hkv2 =>
                    valIn_mono (fun x hx => lt_of_lt_of_le hx le1) kv2.2
                      (hvals kv2 (List.mem_cons_of_mem _ hkv2)))
                  hc2
              refine ⟨le1.trans le2, ?_, ?_, ?_, wfB2, ?_⟩
              · intro a ha
                rw [pres2 a (lt_of_lt_of_le ha le1), pres1 a ha]
              · intro kv2 hkv2
                rcases List.mem_cons.mp hkv2 with he | he
                · subst he
                  exact valIn_mono
                    (fun x hx => ⟨hx.1, lt_of_lt_of_le hx.2 le2⟩) v1 vin1
                · exact valIn_mono (fun x hx => ⟨le1.trans hx.1, hx.2⟩) kv2.2
                    (vin2 kv2 he)
              · intro a n ha1 ha2 hl
                by_cases hlt : a < hA.next
                · have hl' : Heap.lookup hA a = some n := by
                    rw [← pres2 a hlt]; exact hl
                  exact nodeIn_mono (fun x hx => ⟨hx.1, lt_of_lt_of_le hx.2 le2⟩)
                    n (closed1 a n ha1 hlt hl')
                · exact nodeIn_mono (fun x hx => ⟨le1.trans hx.1, hx.2⟩) n
                    (closed2 a n (not_lt.mp hlt) ha2 hl)
              · intro g'
                have hhead : hRead g' hB2 v1 = hRead g' h0 v := by
                  have e1 : hRead g' hB2 v1 = hRead g' hA v1 :=
                    hRead_agree (fun x => h0.next ≤ x ∧ x < hA.next) hA hB2
                      (fun a ha => pres2 a ha.2)
                      (fun a n ha hl => closed1 a n ha.1 ha.2 hl) g' v1 vin1
                  rw [e1, read1 g']
                have htail : optFields (hRead g' hB2) rest1
                    = optFields (hRead g' h0) rest := by
                  rw [read2 g']
                  exact optFields_congr _ _ rest (fun kv2 hkv2 =>
                    hRead_agree (fun x => x < h0.next) h0 hA pres1
                      (fun a n ha hl => (hwf0 a n hl).2) g' kv2.2
                      (hvals kv2 (List.mem_cons_of_mem _ hkv2)))
                simp only [optFields]
                rw [hhead, htail]

theorem cloneList_ok (g : Nat) (hg : CloneOk g) :
    ∀ (es : List HVal) (h0 hB : Heap) (es1 : List HVal),
      Heap.wfP h0 → (∀ v ∈ es, valIn (fun x => x < h0.next) v) →
      cloneList (hClone g) h0 es = some (hB, es1) →
      h0.next ≤ hB.next ∧
      (∀ a, a < h0.next → Heap.lookup hB a = Heap.lookup h0 a) ∧
      (∀ v ∈ es1, valIn (fun x => h0.next ≤ x ∧ x < hB.next) v) ∧
      (∀ a n, h0.next ≤ a → a < hB.next → Heap.lookup hB a = some n →
          nodeIn (fun x => h0.next ≤ x ∧ x < hB.next) n) ∧
      Heap.wfP hB ∧
      (∀ g', optList (hRead g' hB) es1 = optList (hRead g' h0) es) := by
  intro es
  induction es with
  | nil =>
      intro h0 hB es1 hwf0 hvals hcf
      injection hcf with hp
      injection hp with hh hes
      subst hh; subst hes
      refine ⟨le_refl _, fun a _ => rfl,
        fun v hv => absurd hv (List.not_mem_nil _), ?_, hwf0, fun g' => rfl⟩
      intro a n ha1 ha2 _
      exact absurd ha2 (not_lt.mpr ha1)
  | cons v0 rest ih =>
      intro h0 hB es1 hwf0 hvals hcf
      simp only [cloneList] at hcf
      cases hc1 : hClone g h0 v0 with
      | none => rw [hc1] at hcf; exact Option.noConfusion hcf
      | some pA =>
          obtain ⟨hA, v1⟩ := pA
          simp only [hc1] at hcf
          cases hc2 : cloneList (hClone g) hA rest with
          | none => rw [hc2] at hcf; exact Option.noConfusion hcf
          | some pB =>
              obtain ⟨hB2, rest1⟩ := pB
              simp only [hc2] at hcf
              injection hcf with hp
              injection hp with hh hes
              subst hh; subst hes
              obtain ⟨le1, pres1, vin1, closed1, wfA, read1⟩ :=
                hg h0 v0 hA v1 hwf0 (hvals v0 (List.mem_cons_self _ _)) hc1
              obtain ⟨le2, pres2, vin2, closed2, wfB2, read2⟩ :=
                ih hA hB2 rest1 wfA
                  (fun w hw =>
                    valIn_mono (fun x hx => lt_of_lt_of_le hx le1) w
                      (hvals w (List.mem_cons_of_mem _ hw)))
                  hc2
              refine ⟨le1.trans le2, ?_, ?_, ?_, wfB2, ?_⟩
              · intro a ha
                rw [pres2 a (lt_of_lt_of_le ha le1), pres1 a ha]
              · intro w hw
                rcases List.mem_cons.mp hw with he | he
                · rw [he]
                  exact valIn_mono
                    (fun x hx => ⟨hx.1, lt_of_lt_of_le hx.2 le2⟩) v1 vin1
                · exact valIn_mono (fun x hx => ⟨le1.trans hx.1, hx.2⟩) w
                    (vin2 w he)
              · intro a n ha1 ha2 hl
                by_cases hlt : a < hA.next
                · have hl' : Heap.lookup hA a = some n := by
                    rw [← pres2 a hlt]; exact hl
                  exact nodeIn_mono (fun x hx => ⟨hx.1, lt_of_lt_of_le hx.2 le2⟩)
                    n (closed1 a n ha1 hlt hl')
                · exact nodeIn_mono (fun x hx => ⟨le1.trans hx.1, hx.2⟩) n
                    (closed2 a n (not_lt.mp hlt) ha2 hl)
              · intro g'
                have hhead : hRead g' hB2 v1 = hRead g' h0 v0 := by
                  have e1 : hRead g' hB2 v1 = hRead g' hA v1 :=
                    hRead_agree (fun x => h0.next ≤ x ∧ x < hA.next) hA hB2
                      (fun a ha => pres2 a ha.2)
                      (fun a n ha hl => closed1 a n ha.1 ha.2 hl) g' v1 vin1
                  rw [e1, read1 g']
                have htail : optList (hRead g' hB2) rest1
                    = optList (hRead g' h0) rest := by
                  rw [read2 g']
                  exact optList_congr _ _ rest (fun w hw =>
                    hRead_agree (fun x => x < h0.next) h0 hA pres1
                      (fun a n ha hl => (hwf0 a n hl).2) g' w
                      (hvals w (List.mem_cons_of_mem _ hw)))
                simp only [optList]
                rw [hhead, htail]

/-- `hClone` satisfies its specification at every fuel. -/
theorem hClone_ok : ∀ fuel, CloneOk fuel := by
  intro fuel
  induction fuel with
  | zero =>
      intro h v h2 v2 hwf hv hcl
      cases v with
      | ref a => exact Option.noConfusion hcl
      | null =>
          injection hcl with hp
          injection hp with hh hv2
          subst hh; subst hv2
          refine ⟨le_refl _, fun a _ => rfl, trivial, ?_, hwf, fun g => rfl⟩
          intro a n ha1 ha2 _
          exact absurd ha2 (not_lt.mpr ha1)
      | bool b =>
          injection hcl with hp
          injection hp with hh hv2
          subst hh; subst hv2
          refine ⟨le_refl _, fun a _ => rfl, trivial, ?_, hwf, fun g => rfl⟩
          intro a n ha1 ha2 _
          exact absurd ha2 (not_lt.mpr ha1)
      | num n0 =>
          injection hcl with hp
          injection hp with hh hv2
          subst hh; subst hv2
          refine ⟨le_refl _, fun a _ => rfl, trivial, ?_, hwf, fun g => rfl⟩
          intro a n ha1 ha2 _
          exact absurd ha2 (not_lt.mpr ha1)
      | str s0 =>
          injection hcl with hp
          injection hp with hh hv2
          subst hh; subst hv2
          refine ⟨le_refl _, fun a _ => rfl, trivial, ?_, hwf, fun g => rfl⟩
          intro a n ha1 ha2 _
          exact absurd ha2 (not_lt.mpr ha1)
  | succ g ih =>
      intro h v h2 v2 hwf hv hcl
      cases v with
      | null =>
          injection hcl with hp
          injection hp with hh hv2
          subst hh; subst hv2
          refine ⟨le_refl _, fun a _ => rfl, trivial, ?_, hwf, fun g2 => rfl⟩
          intro a n ha1 ha2 _
          exact absurd ha2 (not_lt.mpr ha1)
      | bool b =>
          injection hcl with hp
          injection hp with hh hv2
          subst hh; subst hv2
          refine ⟨le_refl _, fun a _ => rfl, trivial, ?_, hwf, fun g2 => rfl⟩
          intro a n ha1 ha2 _
          exact absurd ha2 (not_lt.mpr ha1)
      | num n0 =>
          injection hcl with hp
          injection hp with hh hv2
          subst hh; subst hv2
          refine ⟨le_refl _, fun a _ => rfl, trivial, ?_, hwf, fun g2 => rfl⟩
          intro a n ha1 ha2 _
          exact absurd ha2 (not_lt.mpr ha1)
      | str s0 =>
          injection hcl with hp
          injection hp with hh hv2
          subst hh; subst hv2
          refine ⟨le_refl _, fun a _ => rfl, trivial, ?_, hwf, fun g2 => rfl⟩
          intro a n ha1 ha2 _
          exact absurd ha2 (not_lt.mpr ha1)
      | ref a =>
          have ha : a < h.next := hv
          simp only [hClone] at hcl
          cases hl : Heap.lookup h a with
          | none => rw [hl] at hcl; exact Option.noConfusion hcl
          | some node =>
              cases node with
              | obj fs =>
                  simp only [hl] at hcl
                  cases hcf : cloneFields (hClone g) h fs with
                  | none => rw [hcf] at hcl; exact Option.noConfusion hcl
                  | some pF =>
                      obtain ⟨hF, fs1⟩ := pF
                      simp only [hcf] at hcl
                      injection hcl with hp
                      injection hp with hh hv2
                      subst hh; subst hv2
                      have hvalsfs : ∀ kv ∈ fs, valIn (fun x => x < h.next) kv.2 :=
                        (hwf a _ hl).2
                      obtain ⟨le1, pres1, vin1, closed1, wfF, read1⟩ :=
                        cloneFields_ok g ih fs h hF fs1 hwf hvalsfs hcf
                      refine ⟨le1.trans (Nat.le_succ _), ?_,
                        ⟨le1, Nat.lt_succ_self _⟩, ?_, ?_, ?_⟩
                      · intro b hb
                        have hne : b ≠ hF.next :=
                          Nat.ne_of_lt (lt_of_lt_of_le hb le1)
                        show heapGet (heapSet hF.mem hF.next (HNode.obj fs1)) b
                          = Heap.lookup h b
                        rw [heapGet_heapSet_ne _ _ _ _ hne]
                        exact pres1 b hb
                      · intro b n hb1 hb2 hlb
                        by_cases he : b = hF.next
                        · subst he
                          have h2l : Heap.lookup
                              { next := hF.next + 1,
                                mem := heapSet hF.mem hF.next (HNode.obj fs1) }
                              hF.next = some (HNode.obj fs1) :=
                            heapGet_heapSet_self hF.mem hF.next _
                          injection (h2l.symm.trans hlb) with hn
                          rw [← hn]
                          intro kv hkv
                          exact valIn_mono
                            (fun x hx => ⟨hx.1, Nat.lt_succ_of_lt hx.2⟩) kv.2
                            (vin1 kv hkv)
                        · have hlt : b < hF.next :=
                            Nat.lt_of_le_of_ne (Nat.le_of_lt_succ hb2) he
                          have hl' : Heap.lookup hF b = some n :=
                            (heapGet_heapSet_ne hF.mem hF.next b
                              (HNode.obj fs1) he).symm.trans hlb
                          exact nodeIn_mono
                            (fun x hx => ⟨hx.1, Nat.lt_succ_of_lt hx.2⟩) n
                            (closed1 b n hb1 hlt hl')
                      · intro b n hlb
                        by_cases he : b = hF.next
                        · subst he
                          have h2l : Heap.lookup
                              { next := hF.next + 1,
                                mem := heapSet hF.mem hF.next (HNode.obj fs1) }
                              hF.next = some (HNode.obj fs1) :=
                            heapGet_heapSet_self hF.mem hF.next _
                          injection (h2l.symm.trans hlb) with hn
                          refine ⟨Nat.lt_succ_self _, ?_⟩
                          rw [← hn]
                          intro kv hkv
                          exact valIn_mono
                            (fun x hx => Nat.lt_succ_of_lt hx.2) kv.2
                            (vin1 kv hkv)
                        · have hl' : Heap.lookup hF b = some n :=
                            (heapGet_heapSet_ne hF.mem hF.next b
                              (HNode.obj fs1) he).symm.trans hlb
                          obtain ⟨haF, hnF⟩ := wfF b n hl'
                          exact ⟨Nat.lt_succ_of_lt haF,
                            nodeIn_mono (fun x hx => Nat.lt_succ_of_lt hx) n hnF⟩
                      · intro g2
                        cases g2 with
                        | zero => rfl
                        | succ g3 =>
                            simp only [hRead]
                            rw [show Heap.lookup
                                { next := hF.next + 1,
                                  mem := heapSet hF.mem hF.next (HNode.obj fs1) }
                                hF.next = some (HNode.obj fs1)
                              from heapGet_heapSet_self hF.mem hF.next _, hl]
                            have step1 : optFields (hRead g3
                                { next := hF.next + 1,
                                  mem := heapSet hF.mem hF.next (HNode.obj fs1) }) fs1
                                = optFields (hRead g3 hF) fs1 :=
                              optFields_congr _ _ fs1 (fun kv hkv =>
                                hRead_agree (fun x => h.next ≤ x ∧ x < hF.next)
                                  hF
                                  { next := hF.next + 1,
                                    mem := heapSet hF.mem hF.next (HNode.obj fs1) }
                                  (fun b hb => heapGet_heapSet_ne hF.mem hF.next b
                                    (HNode.obj fs1) (Nat.ne_of_lt hb.2))
                                  (fun b n hb hlb => closed1 b n hb.1 hb.2 hlb)
                                  g3 kv.2 (vin1 kv hkv))
                            simp only [step1, read1 g3]
              | arr es =>
                  simp only [hl] at hcl
                  cases hcf : cloneList (hClone g) h es with
                  | none => rw [hcf] at hcl; exact Option.noConfusion hcl
                  | some pF =>
                      obtain ⟨hF, es1⟩ := pF
                      simp only [hcf] at hcl
                      injection hcl with hp
                      injection hp with hh hv2
                      subst hh; subst hv2
                      have hvalses : ∀ w ∈ es, valIn (fun x => x < h.next) w :=
                        (hwf a _ hl).2
                      obtain ⟨le1, pres1, vin1, closed1, wfF, read1⟩ :=
                        cloneList_ok g ih es h hF es1 hwf hvalses hcf
                      refine ⟨le1.trans (Nat.le_succ _), ?_,
                        ⟨le1, Nat.lt_succ_self _⟩, ?_, ?_, ?_⟩
                      · intro b hb
                        have hne : b ≠ hF.next :=
                          Nat.ne_of_lt (lt_of_lt_of_le hb le1)
                        show heapGet (heapSet hF.mem hF.next (HNode.arr es1)) b
                          = Heap.lookup h b
                        rw [heapGet_heapSet_ne _ _ _ _ hne]
                        exact pres1 b hb
                      · intro b n hb1 hb2 hlb
                        by_cases he : b = hF.next
                        · subst he
                          have h2l : Heap.lookup
                              { next := hF.next + 1,
                                mem := heapSet hF.mem hF.next (HNode.arr es1) }
                              hF.next = some (HNode.arr es1) :=
                            heapGet_heapSet_self hF.mem hF.next _
                          injection (h2l.symm.trans hlb) with hn
                          rw [← hn]
                          intro w hw
                          exact valIn_mono
                            (fun x hx => ⟨hx.1, Nat.lt_succ_of_lt hx.2⟩) w
                            (vin1 w hw)
                        · have hlt : b < hF.next :=
                            Nat.lt_of_le_of_ne (Nat.le_of_lt_succ hb2) he
                          have hl' : Heap.lookup hF b = some n :=
                            (heapGet_heapSet_ne hF.mem hF.next b
                              (HNode.arr es1) he).symm.trans hlb
                          exact nodeIn_mono
                            (fun x hx => ⟨hx.1, Nat.lt_succ_of_lt hx.2⟩) n
                            (closed1 b n hb1 hlt hl')
                      · intro b n hlb
                        by_cases he : b = hF.next
                        · subst he
                          have h2l : Heap.lookup
                              { next := hF.next + 1,
                                mem := heapSet hF.mem hF.next (HNode.arr es1) }
                              hF.next = some (HNode.arr es1) :=
                            heapGet_heapSet_self hF.mem hF.next _
                          injection (h2l.symm.trans hlb) with hn
                          refine ⟨Nat.lt_succ_self _, ?_⟩
                          rw [← hn]
                          intro w hw
                          exact valIn_mono
                            (fun x hx => Nat.lt_succ_of_lt hx.2) w
                            (vin1 w hw)
                        · have hl' : Heap.lookup hF b = some n :=
                            (heapGet_heapSet_ne hF.mem hF.next b
                              (HNode.arr es1) he).symm.trans hlb
                          obtain ⟨haF, hnF⟩ := wfF b n hl'
                          exact ⟨Nat.lt_succ_of_lt haF,
                            nodeIn_mono (fun x hx => Nat.lt_succ_of_lt hx) n hnF⟩
                      · intro g2
                        cases g2 with
                        | zero => rfl
                        | succ g3 =>
                            simp only [hRead]
                            rw [show Heap.lookup
                                { next := hF.next + 1,
                                  mem := heapSet hF.mem hF.next (HNode.arr es1) }
                                hF.next = some (HNode.arr es1)
                              from heapGet_heapSet_self hF.mem hF.next _, hl]
                            have step1 : optList (hRead g3
                                { next := hF.next + 1,
                                  mem := heapSet hF.mem hF.next (HNode.arr es1) }) es1
                                = optList (hRead g3 hF) es1 :=
                              optList_congr _ _ es1 (fun w hw =>
                                hRead_agree (fun x => h.next ≤ x ∧ x < hF.next)
                                  hF
                                  { next := hF.next + 1,
                                    mem := heapSet hF.mem hF.next (HNode.arr es1) }
                                  (fun b hb => heapGet_heapSet_ne hF.mem hF.next b
                                    (HNode.arr es1) (Nat.ne_of_lt hb.2))
                                  (fun b n hb hlb => closed1 b n hb.1 hb.2 hlb)
                                  g3 w (vin1 w hw))
                            simp only [step1, read1 g3]

theorem hAssocGet_hAssocSet_self (l : List (String × HVal)) (k : String)
    (v : HVal) : hAssocGet (hAssocSet l k v) k = some v := by
  induction l with
  | nil => simp [hAssocGet, hAssocSet]
  | cons hd tl ih =>
      obtain ⟨k', v'⟩ := hd
      by_cases h : k' = k
      · simp [hAssocSet, hAssocGet, h]
      · simp [hAssocSet, hAssocGet, h, ih]

/-- C8 counterexample: three of the store's write paths store or share
the caller's objects by reference, refuting the claimed universal clone
boundary.
(1) `setState({value: v, replace: true})` (src/store.ts line 221
`this._internalState = value`, no clone): internal state `{x:0}` at
address 0, caller's `v = {a:1}` at address 1; after the call the store's
internal reference IS address 1 and the caller's mutation `v.a = 99`
changes the observed state from `{a:1}` to `{a:99}`.
(2) `createSlice({name: "cart", initialState})` (line 247
`this._internalState[name] = initialState ?? {}`, no clone): the slice
field holds the caller's address 1, and the same mutation changes the
observed `state.cart` from `{a:1}` to `{a:99}`.
(3) the whole-state merge `{...this._internalState, ...value}` (line
224) copies only the top level and shares `value`'s field values: with
`v = {p: {a:1}}` (nested object at address 2), mutating that nested
object afterwards changes the observed state from `{p:{a:1}}` to
`{p:{a:99}}`. -/
theorem write_paths_alias_counterexample :
    (hSetState 10
        { next := 2, mem := [(0, HNode.obj [("x", HVal.num 0)]),
                             (1, HNode.obj [("a", HVal.num 1)])] }
        0 none (HVal.ref 1) (some true)
      = some ({ next := 2, mem := [(0, HNode.obj [("x", HVal.num 0)]),
                                   (1, HNode.obj [("a", HVal.num 1)])] }, 1) ∧
     observeState 10
        { next := 2, mem := [(0, HNode.obj [("x", HVal.num 0)]),
                             (1, HNode.obj [("a", HVal.num 1)])] } 1
      = some (JValue.obj [("a", JValue.num 1)]) ∧
     observeState 10
        (Heap.update
          { next := 2, mem := [(0, HNode.obj [("x", HVal.num 0)]),
                               (1, HNode.obj [("a", HVal.num 1)])] }
          1 (HNode.obj [("a", HVal.num 99)])) 1
      = some (JValue.obj [("a", JValue.num 99)])) ∧
    (hCreateSlice
        { next := 2, mem := [(0, HNode.obj []),
                             (1, HNode.obj [("a", HVal.num 1)])] }
        0 "cart" (some (HVal.ref 1))
      = some ({ next := 2,
                mem := [(0, HNode.obj [("cart", HVal.ref 1)]),
                        (1, HNode.obj [("a", HVal.num 1)])] }, 0) ∧
     observeSlice 10
        { next := 2, mem := [(0, HNode.obj [("cart", HVal.ref 1)]),
                             (1, HNode.obj [("a", HVal.num 1)])] } 0 "cart"
      = some (JValue.obj [("a", JValue.num 1)]) ∧
     observeSlice 10
        (Heap.update
          { next := 2, mem := [(0, HNode.obj [("cart", HVal.ref 1)]),
                               (1, HNode.obj [("a", HVal.num 1)])] }
          1 (HNode.obj [("a", HVal.num 99)])) 0 "cart"
      = some (JValue.obj [("a", JValue.num 99)])) ∧
    (hSetState 10
        { next := 3, mem := [(0, HNode.obj []),
                             (1, HNode.obj [("p", HVal.ref 2)]),
                             (2, HNode.obj [("a", HVal.num 1)])] }
        0 none (HVal.ref 1) none
      = some ({ next := 4,
                mem := [(0, HNode.obj []),
                        (1, HNode.obj [("p", HVal.ref 2)]),
                        (2, HNode.obj [("a", HVal.num 1)]),
                        (3, HNode.obj [("p", HVal.ref 2)])] }, 3) ∧
     observeState 10
        { next := 4, mem := [(0, HNode.obj []),
                             (1, HNode.obj [("p", HVal.ref 2)]),
                             (2, HNode.obj [("a", HVal.num 1)]),
                             (3, HNode.obj [("p", HVal.ref 2)])] } 3
      = some (JValue.obj [("p", JValue.obj [("a", JValue.num 1)])]) ∧
     observeState 10
        (Heap.update
          { next := 4, mem := [(0, HNode.obj []),
                               (1, HNode.obj [("p", HVal.ref 2)]),
                               (2, HNode.obj [("a", HVal.num 1)]),
                               (3, HNode.obj [("p", HVal.ref 2)])] }
          2 (HNode.obj [("a", HVal.num 99)])) 3
      = some (JValue.obj [("p", JValue.obj [("a", JValue.num 99)])])) ∧
    isEqual (JValue.obj [("a", JValue.num 1)])
        (JValue.obj [("a", JValue.num 99)]) = false ∧
    isEqual (JValue.obj [("p", JValue.obj [("a", JValue.num 1)])])
        (JValue.obj [("p", JValue.obj [("a", JValue.num 99)])]) = false :=
  ⟨⟨rfl, rfl, rfl⟩, ⟨rfl, rfl, rfl⟩, ⟨rfl, rfl, rfl⟩, by decide, by decide⟩

/-- C8 (amended): the `state` getter and the slice-update path of
`setState` do cross a clone boundary.  On a well-formed heap, after
`setState({slice: s, value})` (nonempty `s`) the observed slice denotes
exactly the JSON snapshot `value` had at call time, and mutating any
pre-existing object other than the internal node itself — in particular
any object the caller holds, such as `value`'s own nodes — leaves the
observed slice unchanged; the getter's returned clone denotes the
current state and lives entirely in fresh addresses, so mutating it
never changes the store's observed state.  Excluded, with each exclusion
exhibited concretely in the counterexample: the whole-state
`replace: true` path and `createSlice`'s `initialState` store the
caller's reference directly, and the whole-state merge shares `value`'s
field values by reference. -/
theorem clone_boundary_getter_and_slice (fuel : Nat) (h : Heap)
    (internal : Addr) (s : String) (value : HVal) (r : Option Bool)
    (h2 : Heap) (i2 : Addr)
    (hwf : Heap.wfP h) (hint : internal < h.next) (hs : s ≠ "")
    (hval : valIn (fun x => x < h.next) value)
    (hset : hSetState fuel h internal (some s) value r = some (h2, i2)) :
    i2 = internal ∧
    (∀ g, observeSlice g h2 internal s = hRead g h value) ∧
    (∀ b n0 g, b < h.next → b ≠ internal →
        observeSlice g (Heap.update h2 b n0) internal s
          = observeSlice g h2 internal s) ∧
    (∀ h3 v3, hStateGet fuel h internal = some (h3, v3) →
        (∀ g, hRead g h3 v3 = observeState g h internal) ∧
        (∀ b n0 g, h.next ≤ b →
            observeState g (Heap.update h3 b n0) internal
              = observeState g h internal)) := by
  simp only [hSetState, sliceTruthy, if_neg hs] at hset
  cases hli : Heap.lookup h internal with
  | none =>
      simp only [hli] at hset
      exact Option.noConfusion hset
  | some node =>
      cases node with
      | arr es =>
          simp only [hli] at hset
          exact Option.noConfusion hset
      | obj fs =>
          simp only [hli] at hset
          cases hga : hAssocGet fs s with
          | none =>
              simp only [hga] at hset
              exact Option.noConfusion hset
          | some cur =>
              simp only [hga] at hset
              by_cases hcur : cur = HVal.null
              · rw [if_pos hcur] at hset
                exact Option.noConfusion hset
              · rw [if_neg hcur] at hset
                cases hclv : hClone fuel h value with
                | none =>
                    simp only [hclv] at hset
                    exact Option.noConfusion hset
                | some p1 =>
                    obtain ⟨h1, v1⟩ := p1
                    simp only [hclv] at hset
                    cases hli1 : Heap.lookup h1 internal with
                    | none =>
                        simp only [hli1] at hset
                        exact Option.noConfusion hset
                    | some node1 =>
                        cases node1 with
                        | arr es1 =>
                            simp only [hli1] at hset
                            exact Option.noConfusion hset
                        | obj fs1 =>
                            simp only [hli1] at hset
                            injection hset with hp
                            injection hp with hh2 hi2
                            subst hh2
                            subst hi2
                            obtain ⟨le1, pres1, vin1, closed1, wfC, readC⟩ :=
                              hClone_ok fuel h value h1 v1 hwf hval hclv
                            have hlook2 : Heap.lookup
                                (Heap.update h1 internal
                                  (HNode.obj (hAssocSet fs1 s v1))) internal
                                = some (HNode.obj (hAssocSet fs1 s v1)) :=
                              Heap.lookup_update_self h1 internal _
                            have hread21 : ∀ g,
                                hRead g (Heap.update h1 internal
                                  (HNode.obj (hAssocSet fs1 s v1))) v1
                                = hRead g h1 v1 := by
                              intro g
                              exact hRead_agree
                                (fun x => h.next ≤ x ∧ x < h1.next) h1 _
                                (fun b hb => Heap.lookup_update_ne h1 internal b _
                                  (Nat.ne_of_gt (lt_of_lt_of_le hint hb.1)))
                                (fun b n1 hb hl1 => closed1 b n1 hb.1 hb.2 hl1)
                                g v1 vin1
                            have obs2 : ∀ g,
                                observeSlice g (Heap.update h1 internal
                                  (HNode.obj (hAssocSet fs1 s v1))) internal s
                                = hRead g h value := by
                              intro g
                              simp only [observeSlice, hlook2,
                                hAssocGet_hAssocSet_self]
                              rw [hread21 g, readC g]
                            refine ⟨rfl, obs2, ?_, ?_⟩
                            · intro b n0 g hb hbi
                              have hlook3 : Heap.lookup
                                  (Heap.update (Heap.update h1 internal
                                    (HNode.obj (hAssocSet fs1 s v1))) b n0) internal
                                  = some (HNode.obj (hAssocSet fs1 s v1)) :=
                                (Heap.lookup_update_ne _ b internal n0
                                  (Ne.symm hbi)).trans hlook2
                              have hr3 : hRead g
                                  (Heap.update (Heap.update h1 internal
                                    (HNode.obj (hAssocSet fs1 s v1))) b n0) v1
                                  = hRead g h1 v1 :=
                                hRead_agree
                                  (fun x => h.next ≤ x ∧ x < h1.next) h1 _
                                  (fun c hc =>
                              (Heap.lookup_update_ne _ b c n0
                                          (Nat.ne_of_gt (lt_of_lt_of_le hb hc.1))).trans
                                      (Heap.lookup_update_ne h1 internal c _
                                        (Nat.ne_of_gt (lt_of_lt_of_le hint hc.1))))
                                  (fun c n1 hc hl1 => closed1 c n1 hc.1 hc.2 hl1)
                                  g v1 vin1
                              simp only [observeSlice, hlook3, hlook2,
                                hAssocGet_hAssocSet_self]
                              rw [hr3, hread21 g]
                            · intro h3 v3 hget
                              obtain ⟨le1', pres1', vin1', closed1', wf', readC'⟩ :=
                                hClone_ok fuel h (HVal.ref internal) h3 v3 hwf hint
                                  hget
                              refine ⟨fun g => readC' g, ?_⟩
                              intro b n0 g hb
                              show hRead g (Heap.update h3 b n0) (HVal.ref internal)
                                = hRead g h (HVal.ref internal)
                              exact hRead_agree (fun x => x < h.next) h
                                (Heap.update h3 b n0)
                                (fun c hc =>
                                  (Heap.lookup_update_ne h3 b c n0
                                      (Nat.ne_of_lt (lt_of_lt_of_le hc hb))).trans
                                    (pres1' c hc))
                                (fun c n1 hc hl1 => (hwf c n1 hl1).2)
                                g (HVal.ref internal) hint

/-- C8 amended-claim witness: a slice-path `setState` stores a clone of
the caller's `{a:1}` (at the fresh address 2); the caller's subsequent
mutation `v.a = 99` on its own object (address 1) leaves the observed
slice at the call-time snapshot `{a:1}`. -/
theorem clone_boundary_getter_and_slice_witness :
    observeSlice 10
        (Heap.update
          { next := 3, mem := [(0, HNode.obj [("x", HVal.ref 2)]),
                               (1, HNode.obj [("a", HVal.num 1)]),
                               (2, HNode.obj [("a", HVal.num 1)])] }
          1 (HNode.obj [("a", HVal.num 99)])) 0 "x"
      = some (JValue.obj [("a", JValue.num 1)]) := by
  have hmain := clone_boundary_getter_and_slice 10
      { next := 2, mem := [(0, HNode.obj [("x", HVal.num 0)]),
                           (1, HNode.obj [("a", HVal.num 1)])] }
      0 "x" (HVal.ref 1) none
      { next := 3, mem := [(0, HNode.obj [("x", HVal.ref 2)]),
                           (1, HNode.obj [("a", HVal.num 1)]),
                           (2, HNode.obj [("a", HVal.num 1)])] }
      0
      (wfB_wfP _ (by decide)) (by decide) (by decide)
      (show (1 : Nat) < 2 by decide) rfl
  have h3 := hmain.2.2.1 1 (HNode.obj [("a", HVal.num 99)]) 10
    (by decide) (by decide)
  rw [h3, hmain.2.1 10]
  rfl

end PicoState

